import Mathlib

/-!
Verification of the pairs/spreads analyzer.

The repository consists of `analyzer.py` (historical grid-search over
open/close spread thresholds) and `bot.py` (live monitor reusing the same
two-state detector).  Prices, spreads and thresholds are embedded as exact
rationals (`ℚ`); timestamps as integers; machine lists as `List`.  Python's
`round(x, k)` is embedded as rounding `x * 10^k` to the nearest integer.
All definitions below are direct translations of the Python source; the
`…Spec` definitions restate the specification's wording for comparison.
-/

namespace PairsSpreads

/-- State-machine step of `count_cycles_for_thresholds` (analyzer.py lines
96-105): in state `"waiting_open"`, a spread `s` with `s ≥ open_thr` moves to
`"waiting_close"`; in state `"waiting_close"`, a spread `s ≤ close_thr`
increments the count and moves back to `"waiting_open"`. -/
def cycleStep (open_thr close_thr : ℚ) (sc : String × ℕ) (s : ℚ) : String × ℕ :=
  if sc.1 = "waiting_open" then
    (if open_thr ≤ s then ("waiting_close", sc.2) else sc)
  else if sc.1 = "waiting_close" then
    (if s ≤ close_thr then ("waiting_open", sc.2 + 1) else sc)
  else sc

/-- Embedding of `count_cycles_for_thresholds` (analyzer.py lines 88-106):
fold the state machine over the spread series starting in `"waiting_open"`
with count 0 and return the final count. -/
def count_cycles_for_thresholds (spreads : List ℚ) (open_thr close_thr : ℚ) : ℕ :=
  (spreads.foldl (cycleStep open_thr close_thr) ("waiting_open", 0)).2

/-- The two detector states named by the specification (§4.3). -/
inductive DetState : Type
  | waitingOpen : DetState
  | waitingClose : DetState
deriving DecidableEq

/-- Transition rule of the specification's Cycle Detector (§4.3), written
from the spec's words: in `WaitingOpen`, value ≥ openThreshold moves to
`WaitingClose`; in `WaitingClose`, value ≤ closeThreshold increments the
count and moves back to `WaitingOpen`; otherwise nothing changes. -/
def detStep (open_thr close_thr : ℚ) : DetState × ℕ → ℚ → DetState × ℕ
  | (DetState.waitingOpen, n), v =>
      if open_thr ≤ v then (DetState.waitingClose, n) else (DetState.waitingOpen, n)
  | (DetState.waitingClose, n), v =>
      if v ≤ close_thr then (DetState.waitingOpen, n + 1) else (DetState.waitingClose, n)

/-- The specification's `countCycles` (§4.3): process the series in order
from `WaitingOpen` with count 0; a pending `WaitingClose` at end of series is
discarded. -/
def countCyclesSpec (spreads : List ℚ) (open_thr close_thr : ℚ) : ℕ :=
  (spreads.foldl (detStep open_thr close_thr) (DetState.waitingOpen, 0)).2

/-- The code's string state corresponding to a spec detector state. -/
def encodeState : DetState → String
  | DetState.waitingOpen => "waiting_open"
  | DetState.waitingClose => "waiting_close"

/-- Pair version of `encodeState`. -/
def encodePair (p : DetState × ℕ) : String × ℕ :=
  (encodeState p.1, p.2)

/-- Weight of a detector state: a pending open costs one step that has
already been consumed but not yet paid for by a completed cycle. -/
def stateInd : DetState → ℕ
  | DetState.waitingOpen => 0
  | DetState.waitingClose => 1

/-- Simulation order between detector configurations: the first machine has
completed strictly more cycles, or the same number with a state at least as
advanced (if the second is waiting to close, so is the first). -/
def Dominates (p q : DetState × ℕ) : Prop :=
  q.2 < p.2 ∨ (p.2 = q.2 ∧ (q.1 = DetState.waitingClose → p.1 = DetState.waitingClose))

/-- Per-point computation of `calc_spread_list` (analyzer.py lines 72-85):
scale the cheaper price by `coef` (on a tie the second price is scaled, since
the code tests `pa < pb`), then take the absolute difference as a percentage
of the mean of the scaled pair; a zero mean gives 0. -/
def spreadPoint (pa pb coef : ℚ) : ℚ :=
  let pa_s := if pa < pb then pa * coef else pa
  let pb_s := if pa < pb then pb else pb * coef
  let denom := (pa_s + pb_s) / 2
  if denom = 0 then 0 else |pa_s - pb_s| / denom * 100

/-- Embedding of `calc_spread_list` (analyzer.py lines 69-86): one spread per
zipped point of the two aligned price series. -/
def calc_spread_list (series_a series_b : List ℚ) (coef : ℚ) : List ℚ :=
  (series_a.zip series_b).map (fun p => spreadPoint p.1 p.2 coef)

/-- One iteration of the live monitor's per-pair transition (bot.py lines
136-160): the stored state is the status string plus the list of recorded
cycle timestamps; a tick is the current clock value paired with the computed
spread.  An inactive pair with spread ≥ open_spread becomes active; an
active pair with spread ≤ close_spread becomes inactive and appends the
clock value to its cycle list. -/
def monitorStep (open_spread close_spread : ℚ) (st : String × List ℤ)
    (tick : ℤ × ℚ) : String × List ℤ :=
  if st.1 = "inactive" ∧ open_spread ≤ tick.2 then ("active", st.2)
  else if st.1 = "active" ∧ tick.2 ≤ close_spread then ("inactive", st.2 ++ [tick.1])
  else st

/-- The bot's status string corresponding to a detector state:
`inactive` is waiting to open, `active` is waiting to close. -/
def monState : DetState → String
  | DetState.waitingOpen => "inactive"
  | DetState.waitingClose => "active"

/-- Value stored under key `ts` after inserting the pairs of `l` in order
into a Python dict (`{ts: p for ts, p in l}`): the last pair with that key
wins. -/
def dictLookup (l : List (ℤ × ℚ)) (ts : ℤ) : Option ℚ :=
  ((l.filter (fun p => p.1 = ts)).getLast?).map Prod.snd

/-- The sorted intersection of the two series' timestamp key sets
(`sorted(set(dict_a.keys()) & set(dict_b.keys()))` in analyzer.py line 64). -/
def commonKeys (a b : List (ℤ × ℚ)) : List ℤ :=
  (((a.map Prod.fst).dedup).filter
      (fun ts => ts ∈ b.map Prod.fst)).mergeSort (fun x y => x ≤ y)

/-- Embedding of `align_series` (analyzer.py lines 56-67): build a
timestamp→price dict per series, take the sorted intersection of the key
sets, and project both series onto it. -/
def align_series (a b : List (ℤ × ℚ)) : List ℤ × List ℚ × List ℚ :=
  (commonKeys a b,
   (commonKeys a b).map (fun ts => (dictLookup a ts).getD 0),
   (commonKeys a b).map (fun ts => (dictLookup b ts).getD 0))

/-- The slack 1e-9 used in analyzer.py's loop bounds. -/
def eps : ℚ := 1 / 10 ^ 9

/-- Python's `round(x, 10)` on the exact rational value: round x·10¹⁰ to the
nearest integer and scale back.  All values the sweep feeds it are exact
multiples of 10⁻¹⁰, so no tie-breaking rule is ever exercised. -/
def round10 (x : ℚ) : ℚ := ((round (x * 10 ^ 10) : ℤ) : ℚ) / 10 ^ 10

/-- Python's `round(x, 2)` used when formatting report entries. -/
def round2 (x : ℚ) : ℚ := ((round (x * 10 ^ 2) : ℤ) : ℚ) / 10 ^ 2

/-- OPEN_MIN of analyzer.py (line 18). -/
def OPEN_MIN : ℚ := 4

/-- OPEN_MAX of analyzer.py (line 19). -/
def OPEN_MAX : ℚ := 30

/-- OPEN_STEP of analyzer.py (line 20). -/
def OPEN_STEP : ℚ := 0.5

/-- CLOSE_STEP of analyzer.py (line 21). -/
def CLOSE_STEP : ℚ := 0.5

/-- Inner while loop of `analyze_pair` (analyzer.py lines 142-148):
enumerate `close_val` up to `max_close + 1e-9` in CLOSE_STEP increments
(rounded to 10 decimals), count cycles at each grid point and retain the
points with a positive count.  The fuel argument only bounds the number of
iterations; it is taken large enough never to be exhausted. -/
def closeLoop (spreads : List ℚ) (open_val max_close : ℚ) :
    ℕ → ℚ → List (ℚ × ℚ × ℕ)
  | 0, _ => []
  | fuel + 1, close_val =>
      if close_val ≤ max_close + eps then
        let cycles := count_cycles_for_thresholds spreads open_val close_val
        let rest := closeLoop spreads open_val max_close fuel
          (round10 (close_val + CLOSE_STEP))
        if 0 < cycles then (open_val, close_val, cycles) :: rest else rest
      else []

/-- Outer while loop of `analyze_pair` (analyzer.py lines 135-149):
enumerate `open_val` up to `open_max + 1e-9` in OPEN_STEP increments,
skip an open whose `max_close = round(open − 4 + 1e-9, 10)` is negative,
and otherwise run the inner close loop from 0. -/
def openLoop (spreads : List ℚ) (open_max : ℚ) : ℕ → ℚ → List (ℚ × ℚ × ℕ)
  | 0, _ => []
  | fuel + 1, open_val =>
      if open_val ≤ open_max + eps then
        let max_close := round10 (open_val - 4 + eps)
        if max_close < 0 then
          openLoop spreads open_max fuel (round10 (open_val + OPEN_STEP))
        else
          closeLoop spreads open_val max_close 1000 0
            ++ openLoop spreads open_max fuel (round10 (open_val + OPEN_STEP))
      else []

/-- The retained results of `analyze_pair`'s threshold sweep (analyzer.py
lines 134-149), for open thresholds from `open_min` to `open_max`. -/
def sweepResults (spreads : List ℚ) (open_min open_max : ℚ) :
    List (ℚ × ℚ × ℕ) :=
  openLoop spreads open_max 1000 open_min

/-- The trace of (open, close) pairs at which the inner loop invokes the
cycle detector: the same inner loop control flow with the invocation
recorded unconditionally. -/
def closeGrid (open_val max_close : ℚ) : ℕ → ℚ → List (ℚ × ℚ)
  | 0, _ => []
  | fuel + 1, close_val =>
      if close_val ≤ max_close + eps then
        (open_val, close_val) ::
          closeGrid open_val max_close fuel (round10 (close_val + CLOSE_STEP))
      else []

/-- The trace of (open, close) pairs at which the sweep invokes the cycle
detector: the same outer loop control flow with invocations recorded
unconditionally. -/
def openGrid (open_max : ℚ) : ℕ → ℚ → List (ℚ × ℚ)
  | 0, _ => []
  | fuel + 1, open_val =>
      if open_val ≤ open_max + eps then
        let max_close := round10 (open_val - 4 + eps)
        if max_close < 0 then
          openGrid open_max fuel (round10 (open_val + OPEN_STEP))
        else
          closeGrid open_val max_close 1000 0
            ++ openGrid open_max fuel (round10 (open_val + OPEN_STEP))
      else []

/-- All (open, close) pairs at which the sweep from `open_min` to `open_max`
invokes the cycle detector, in invocation order. -/
def sweepGrid (open_min open_max : ℚ) : List (ℚ × ℚ) :=
  openGrid open_max 1000 open_min

/-- The retained result at a single grid point, as a partial map. -/
def keepPositive (spreads : List ℚ) (p : ℚ × ℚ) : Option (ℚ × ℚ × ℕ) :=
  let cycles := count_cycles_for_thresholds spreads p.1 p.2
  if 0 < cycles then some (p.1, p.2, cycles) else none

/-- The report stage of `analyze_pair` (analyzer.py lines 150-156): if
nothing was retained return the empty report, otherwise sort by cycle count
descending (Python's stable `sort` with `reverse=True` keeps ties in
encounter order), keep the top 5 and round the thresholds to 2 decimals. -/
def analyze_report (spreads : List ℚ) : List (ℚ × ℚ × ℕ) :=
  if sweepResults spreads OPEN_MIN OPEN_MAX = [] then []
  else
    (((sweepResults spreads OPEN_MIN OPEN_MAX).mergeSort
        (fun x y => y.2.2 ≤ x.2.2)).take 5).map
      (fun r => (round2 r.1, round2 r.2.1, r.2.2))

/-- A rational that is an integer multiple of one half — the form of every
threshold value the sweep's loops produce. -/
def HalfInt (x : ℚ) : Prop := ∃ k : ℤ, x = (k : ℚ) / 2

/-- The `if key not in klines_cache: … klines_cache[key] = kl` prologue of
`analyze_pair` (analyzer.py lines 116-125) for a single key: the cache
unchanged when the key is present, the cache extended with the fetched
series on success, `none` when the fetch fails. -/
def ensureCached (fetch : String → Option (List (ℤ × ℚ)))
    (cache : List (String × List (ℤ × ℚ))) (key : String) :
    Option (List (String × List (ℤ × ℚ))) :=
  match cache.lookup key with
  | some _ => some cache
  | none =>
      match fetch key with
      | none => none
      | some kl => some (cache ++ [(key, kl)])

/-- Embedding of `analyze_pair` (analyzer.py lines 108-156) against an
abstract data source `fetch` standing for `fetch_klines_close` (which
returns `None` on any error): ensure both symbols are cached (returning
`None`, with the cache as mutated so far, if either fetch fails), then
align, compute spreads, sweep and report. -/
def analyze_pair (p1 p2 : String) (coef : ℚ)
    (fetch : String → Option (List (ℤ × ℚ)))
    (cache : List (String × List (ℤ × ℚ))) :
    Option (List (ℚ × ℚ × ℕ)) × List (String × List (ℤ × ℚ)) :=
  match ensureCached fetch cache p1 with
  | none => (none, cache)
  | some cache1 =>
      match ensureCached fetch cache1 p2 with
      | none => (none, cache1)
      | some cache2 =>
          let al := align_series ((cache2.lookup p1).getD [])
            ((cache2.lookup p2).getD [])
          (some (analyze_report (calc_spread_list al.2.1 al.2.2 coef)), cache2)

/-- The cache-free meaning of analysing one combination: what
`analyze_pair` computes when both fetches succeed, `none` otherwise. -/
def analyzePure (p1 p2 : String) (coef : ℚ)
    (fetch : String → Option (List (ℤ × ℚ))) :
    Option (List (ℚ × ℚ × ℕ)) :=
  match fetch p1, fetch p2 with
  | some kl1, some kl2 =>
      some (analyze_report (calc_spread_list
        (align_series kl1 kl2).2.1 (align_series kl1 kl2).2.2 coef))
  | _, _ => none

/-- Embedding of `main`'s loop over the configured combinations (analyzer.py
lines 165-178), carrying the shared klines cache: a combination whose
analysis returns `None` is skipped, every other combination stores its
report.  The report key `f"{p1}-{p2}"` is modelled as the pair (p1, p2);
the f-string is injective on Binance symbol names, which contain no dash. -/
def runAnalysisAux (fetch : String → Option (List (ℤ × ℚ))) :
    List (String × String × ℚ) → List (String × List (ℤ × ℚ)) →
      List ((String × String) × List (ℚ × ℚ × ℕ))
  | [], _ => []
  | (p1, p2, coef) :: rest, cache =>
      match analyze_pair p1 p2 coef fetch cache with
      | (none, cache') => runAnalysisAux fetch rest cache'
      | (some res, cache') => ((p1, p2), res) :: runAnalysisAux fetch rest cache'

/-- Embedding of `main` (analyzer.py lines 158-185): run the loop with an
initially empty cache; the persisted mapping is the accumulated list. -/
def runAnalysis (pairsList : List (String × String × ℚ))
    (fetch : String → Option (List (ℤ × ℚ))) :
    List ((String × String) × List (ℚ × ℚ × ℕ)) :=
  runAnalysisAux fetch pairsList []

/-- A cache only memoizes successful fetches of the pure data source. -/
def CacheOK (fetch : String → Option (List (ℤ × ℚ)))
    (cache : List (String × List (ℤ × ℚ))) : Prop :=
  ∀ k v, cache.lookup k = some v → fetch k = some v

theorem cycleStep_encodePair (o c : ℚ) (p : DetState × ℕ) (v : ℚ) :
    cycleStep o c (encodePair p) v = encodePair (detStep o c p v) := by
  obtain ⟨s, n⟩ := p
  cases s with
  | waitingOpen =>
      by_cases h : o ≤ v <;>
        simp +decide [cycleStep, detStep, encodePair, encodeState, h]
  | waitingClose =>
      by_cases h : v ≤ c <;>
        simp +decide [cycleStep, detStep, encodePair, encodeState, h]

theorem foldl_cycleStep_encodePair (o c : ℚ) (spreads : List ℚ) (p : DetState × ℕ) :
    spreads.foldl (cycleStep o c) (encodePair p) =
      encodePair (spreads.foldl (detStep o c) p) := by
  induction spreads generalizing p with
  | nil => rfl
  | cons v rest ih =>
      simp only [List.foldl_cons, cycleStep_encodePair, ih]

/-- The code's cycle counter agrees with the specification's detector. -/
theorem count_cycles_eq_spec (spreads : List ℚ) (o c : ℚ) :
    count_cycles_for_thresholds spreads o c = countCyclesSpec spreads o c := by
  have h := foldl_cycleStep_encodePair o c spreads (DetState.waitingOpen, 0)
  simp only [count_cycles_for_thresholds, countCyclesSpec]
  rw [show (("waiting_open", 0) : String × ℕ) =
        encodePair (DetState.waitingOpen, 0) from rfl, h]
  rfl

theorem detStep_measure (o c : ℚ) (p : DetState × ℕ) (v : ℚ) :
    2 * (detStep o c p v).2 + stateInd (detStep o c p v).1 ≤
      2 * p.2 + stateInd p.1 + 1 := by
  obtain ⟨s, n⟩ := p
  cases s <;> simp only [detStep] <;> split <;> (simp [stateInd]; try omega)

theorem foldl_detStep_measure (o c : ℚ) (spreads : List ℚ) (p : DetState × ℕ) :
    2 * (spreads.foldl (detStep o c) p).2 + stateInd (spreads.foldl (detStep o c) p).1 ≤
      2 * p.2 + stateInd p.1 + spreads.length := by
  induction spreads generalizing p with
  | nil => simp
  | cons v rest ih =>
      have h1 := ih (detStep o c p v)
      have h2 := detStep_measure o c p v
      simp only [List.foldl_cons, List.length_cons]
      omega

theorem detStep_dominates {o1 o2 c : ℚ} (h12 : o1 ≤ o2) (v : ℚ) :
    ∀ {p q : DetState × ℕ}, Dominates p q →
      Dominates (detStep o1 c p v) (detStep o2 c q v) := by
  rintro ⟨s1, n1⟩ ⟨s2, n2⟩ hd
  cases s1 <;> cases s2 <;>
    simp only [detStep] <;>
    split_ifs with h1 <;>
    (try simp [Dominates] at hd ⊢) <;>
    first
      | omega
      | exact absurd (le_trans h12 ‹o2 ≤ v›) h1

theorem foldl_detStep_dominates {o1 o2 c : ℚ} (h12 : o1 ≤ o2) (spreads : List ℚ) :
    ∀ {p q : DetState × ℕ}, Dominates p q →
      Dominates (spreads.foldl (detStep o1 c) p) (spreads.foldl (detStep o2 c) q) := by
  induction spreads with
  | nil => intro p q hd; exact hd
  | cons v rest ih =>
      intro p q hd
      simpa using ih (detStep_dominates h12 v hd)

/-- C1 counterexample: on spreadSeries [1, 5, 6, 2, 0.5, 7, 1] with
openThreshold 4 and closeThreshold 1 the code does not return 1: the final
value 1 satisfies 1 ≤ 1 and completes a second cycle. -/
theorem count_cycles_scenario_ne_one :
    count_cycles_for_thresholds [1, 5, 6, 2, 0.5, 7, 1] 4 1 ≠ 1 := by
  with_unfolding_all decide

/-- C1 (amended): `count_cycles_for_thresholds` implements exactly the
two-state detector (start in WaitingOpen with count 0, move to WaitingClose
when the value ≥ openThreshold, move back and increment when the value ≤
closeThreshold, discard a pending WaitingClose at end of series); for
spreadSeries [1, 5, 6, 2, 0.5, 7, 1] with open=4 and close=1 it returns
exactly 2 (the last value 1 ≤ 1 closes a second cycle), and for the empty
sequence it returns 0. -/
theorem count_cycles_implements_detector :
    (∀ (spreads : List ℚ) (o c : ℚ),
        count_cycles_for_thresholds spreads o c = countCyclesSpec spreads o c)
    ∧ count_cycles_for_thresholds [1, 5, 6, 2, 0.5, 7, 1] 4 1 = 2
    ∧ count_cycles_for_thresholds [] 4 1 = 0 :=
  ⟨count_cycles_eq_spec, by with_unfolding_all decide, rfl⟩

/-- C3: for every spread series and fixed close threshold, the cycle count is
antitone in the open threshold: raising the open threshold can only decrease
or maintain the count. -/
theorem count_cycles_antitone_in_open (spreads : List ℚ) (o1 o2 c : ℚ)
    (h : o1 ≤ o2) :
    count_cycles_for_thresholds spreads o2 c ≤
      count_cycles_for_thresholds spreads o1 c := by
  rw [count_cycles_eq_spec, count_cycles_eq_spec]
  have h0 : Dominates (DetState.waitingOpen, 0) (DetState.waitingOpen, 0) :=
    Or.inr ⟨rfl, fun hh => hh⟩
  have hf := foldl_detStep_dominates (c := c) h spreads h0
  simp only [countCyclesSpec]
  rcases hf with h' | ⟨he, _⟩
  · exact le_of_lt h'
  · exact le_of_eq he.symm

/-- C3 witness: the antitonicity theorem applied at the concrete series
[1, 5, 6, 2, 0.5, 7, 1] with open thresholds 4 ≤ 5 and close threshold 1. -/
theorem count_cycles_antitone_in_open_witness :
    ((4 : ℚ) ≤ 5) ∧
      count_cycles_for_thresholds [1, 5, 6, 2, 0.5, 7, 1] 5 1 ≤
        count_cycles_for_thresholds [1, 5, 6, 2, 0.5, 7, 1] 4 1 :=
  ⟨by norm_num,
    count_cycles_antitone_in_open [1, 5, 6, 2, 0.5, 7, 1] 4 5 1 (by norm_num)⟩

/-- C4: for every spread series of length n and every pair of thresholds, the
cycle count is a natural number at most ⌊n / 2⌋ (each completed cycle
consumes at least two elements of the series). -/
theorem count_cycles_le_half_length (spreads : List ℚ) (o c : ℚ) :
    count_cycles_for_thresholds spreads o c ≤ spreads.length / 2 := by
  rw [count_cycles_eq_spec]
  have h := foldl_detStep_measure o c spreads (DetState.waitingOpen, 0)
  simp only [countCyclesSpec]
  simp only [stateInd, Nat.mul_zero, Nat.zero_add] at h
  omega

theorem calc_spread_list_getD (series_a : List ℚ) (coef : ℚ) :
    ∀ (series_b : List ℚ) (i : ℕ), i < series_a.length → i < series_b.length →
      (calc_spread_list series_a series_b coef).getD i 0 =
        spreadPoint (series_a.getD i 0) (series_b.getD i 0) coef := by
  induction series_a with
  | nil => intro sb i ha hb; simp at ha
  | cons a as ih =>
      intro sb i ha hb
      cases sb with
      | nil => simp at hb
      | cons b bs =>
          cases i with
          | zero => rfl
          | succ j =>
              simp only [calc_spread_list, List.zip_cons_cons, List.map_cons,
                List.getD_cons_succ]
              simpa only [calc_spread_list] using
                ih bs j (Nat.lt_of_succ_lt_succ ha) (Nat.lt_of_succ_lt_succ hb)

theorem spreadPoint_nonneg {pa pb coef : ℚ} (ha : 0 ≤ pa) (hb : 0 ≤ pb)
    (hc : 0 ≤ coef) : 0 ≤ spreadPoint pa pb coef := by
  have hac : 0 ≤ pa * coef := mul_nonneg ha hc
  have hbc : 0 ≤ pb * coef := mul_nonneg hb hc
  simp only [spreadPoint]
  split_ifs with h1 h2 h3
  · exact le_refl 0
  · have hpos : 0 < (pa * coef + pb) / 2 :=
      lt_of_le_of_ne (div_nonneg (add_nonneg hac hb) (by norm_num)) (Ne.symm h2)
    exact mul_nonneg (div_nonneg (abs_nonneg _) hpos.le) (by norm_num)
  · exact le_refl 0
  · have hpos : 0 < (pa + pb * coef) / 2 :=
      lt_of_le_of_ne (div_nonneg (add_nonneg ha hbc) (by norm_num)) (Ne.symm h3)
    exact mul_nonneg (div_nonneg (abs_nonneg _) hpos.le) (by norm_num)

/-- C5: for equal-length non-negative price series and a non-negative
coefficient, `calc_spread_list` returns a series of the same length whose
i-th point is |pa′ − pb′| / ((pa′ + pb′) / 2) × 100 where only the cheaper
price is scaled by the coefficient (on a tie the second is scaled), a point
with zero scaled mean yields 0 rather than an error, and every point is
non-negative. -/
theorem calc_spread_list_correct (series_a series_b : List ℚ) (coef : ℚ)
    (hlen : series_a.length = series_b.length)
    (hA : ∀ x ∈ series_a, 0 ≤ x) (hB : ∀ x ∈ series_b, 0 ≤ x)
    (hcoef : 0 ≤ coef) :
    (calc_spread_list series_a series_b coef).length = series_a.length
    ∧ (∀ i, i < series_a.length →
        (calc_spread_list series_a series_b coef).getD i 0 =
          (let pa := series_a.getD i 0
           let pb := series_b.getD i 0
           let pa_s := if pa < pb then pa * coef else pa
           let pb_s := if pa < pb then pb else pb * coef
           if (pa_s + pb_s) / 2 = 0 then 0
           else |pa_s - pb_s| / ((pa_s + pb_s) / 2) * 100))
    ∧ (∀ i, i < series_a.length →
        ((if series_a.getD i 0 < series_b.getD i 0 then series_a.getD i 0 * coef
            else series_a.getD i 0) +
          (if series_a.getD i 0 < series_b.getD i 0 then series_b.getD i 0
            else series_b.getD i 0 * coef)) / 2 = 0 →
        (calc_spread_list series_a series_b coef).getD i 0 = 0)
    ∧ (∀ x ∈ calc_spread_list series_a series_b coef, 0 ≤ x) := by
  refine ⟨?_, ?_, ?_, ?_⟩
  · simp [calc_spread_list, hlen]
  · intro i hi
    rw [calc_spread_list_getD series_a coef series_b i hi (hlen ▸ hi)]
    rfl
  · intro i hi hzero
    rw [calc_spread_list_getD series_a coef series_b i hi (hlen ▸ hi)]
    simp only [spreadPoint]
    exact if_pos hzero
  · intro x hx
    rcases List.mem_map.1 hx with ⟨p, hp, rfl⟩
    have hmem := List.of_mem_zip hp
    exact spreadPoint_nonneg (hA _ hmem.1) (hB _ hmem.2) hcoef

/-- C5 witness: the theorem applied to the series [1, 2, 0] and [2, 1, 0]
with coefficient 1/2 (the third point has a zero scaled mean). -/
theorem calc_spread_list_correct_witness :
    (([(1 : ℚ), 2, 0].length = [(2 : ℚ), 1, 0].length)
      ∧ (∀ x ∈ [(1 : ℚ), 2, 0], 0 ≤ x)
      ∧ (∀ x ∈ [(2 : ℚ), 1, 0], 0 ≤ x)
      ∧ (0 ≤ (1/2 : ℚ)))
    ∧ ((calc_spread_list [1, 2, 0] [2, 1, 0] (1/2)).length = [(1 : ℚ), 2, 0].length
    ∧ (∀ i, i < [(1 : ℚ), 2, 0].length →
        (calc_spread_list [1, 2, 0] [2, 1, 0] (1/2)).getD i 0 =
          (let pa := [(1 : ℚ), 2, 0].getD i 0
           let pb := [(2 : ℚ), 1, 0].getD i 0
           let pa_s := if pa < pb then pa * (1/2) else pa
           let pb_s := if pa < pb then pb else pb * (1/2)
           if (pa_s + pb_s) / 2 = 0 then 0
           else |pa_s - pb_s| / ((pa_s + pb_s) / 2) * 100))
    ∧ (∀ i, i < [(1 : ℚ), 2, 0].length →
        ((if [(1 : ℚ), 2, 0].getD i 0 < [(2 : ℚ), 1, 0].getD i 0 then
            [(1 : ℚ), 2, 0].getD i 0 * (1/2)
          else [(1 : ℚ), 2, 0].getD i 0) +
          (if [(1 : ℚ), 2, 0].getD i 0 < [(2 : ℚ), 1, 0].getD i 0 then
            [(2 : ℚ), 1, 0].getD i 0
          else [(2 : ℚ), 1, 0].getD i 0 * (1/2))) / 2 = 0 →
        (calc_spread_list [1, 2, 0] [2, 1, 0] (1/2)).getD i 0 = 0)
    ∧ (∀ x ∈ calc_spread_list [1, 2, 0] [2, 1, 0] (1/2), 0 ≤ x)) :=
  ⟨⟨rfl, by norm_num, by norm_num, by norm_num⟩,
    calc_spread_list_correct [1, 2, 0] [2, 1, 0] (1/2) rfl
      (by norm_num) (by norm_num) (by norm_num)⟩

/-- C10: when the two prices of an aligned point are equal (pa = pb = p),
the code's `pa < pb` test fails, so the second price is the one scaled by
the coefficient; for p > 0 and coefficient c > 0 the point's spread is
|p − p·c| / ((p + p·c) / 2) × 100, strictly positive whenever c ≠ 1 and 0
exactly when c = 1. -/
theorem calc_spread_list_equal_prices (series_a series_b : List ℚ) (coef : ℚ)
    (i : ℕ) (hia : i < series_a.length) (hib : i < series_b.length)
    (heq : series_b.getD i 0 = series_a.getD i 0)
    (hp : 0 < series_a.getD i 0) (hc : 0 < coef) :
    (calc_spread_list series_a series_b coef).getD i 0 =
      |series_a.getD i 0 - series_a.getD i 0 * coef| /
        ((series_a.getD i 0 + series_a.getD i 0 * coef) / 2) * 100
    ∧ (coef ≠ 1 → 0 < (calc_spread_list series_a series_b coef).getD i 0)
    ∧ (coef = 1 → (calc_spread_list series_a series_b coef).getD i 0 = 0) := by
  rw [calc_spread_list_getD series_a coef series_b i hia hib, heq]
  have hlt : ¬ series_a.getD i 0 < series_a.getD i 0 := lt_irrefl _
  have hdenpos : 0 < (series_a.getD i 0 + series_a.getD i 0 * coef) / 2 :=
    div_pos (add_pos hp (mul_pos hp hc)) (by norm_num)
  have hden : (series_a.getD i 0 + series_a.getD i 0 * coef) / 2 ≠ 0 :=
    ne_of_gt hdenpos
  simp only [spreadPoint, if_neg hlt, if_neg hden]
  refine ⟨trivial, ?_, ?_⟩
  · intro hne
    have hsub : series_a.getD i 0 - series_a.getD i 0 * coef ≠ 0 := by
      intro hz
      apply hne
      have : series_a.getD i 0 * (1 - coef) = 0 := by ring_nf; linarith [hz]
      rcases mul_eq_zero.1 this with h | h
      · exact absurd h (ne_of_gt hp)
      · linarith
    exact mul_pos (div_pos (abs_pos.2 hsub) hdenpos) (by norm_num)
  · intro h1
    rw [h1]
    simp

/-- C10 witness: the theorem applied to the aligned point (2, 2) with
coefficient 3. -/
theorem calc_spread_list_equal_prices_witness :
    ((0 : ℕ) < [(2 : ℚ)].length
      ∧ [(2 : ℚ)].getD 0 0 = [(2 : ℚ)].getD 0 0
      ∧ 0 < [(2 : ℚ)].getD 0 0
      ∧ (0 : ℚ) < 3)
    ∧ ((calc_spread_list [2] [2] 3).getD 0 0 =
        |[(2 : ℚ)].getD 0 0 - [(2 : ℚ)].getD 0 0 * 3| /
          (([(2 : ℚ)].getD 0 0 + [(2 : ℚ)].getD 0 0 * 3) / 2) * 100
      ∧ ((3 : ℚ) ≠ 1 → 0 < (calc_spread_list [2] [2] 3).getD 0 0)
      ∧ ((3 : ℚ) = 1 → (calc_spread_list [2] [2] 3).getD 0 0 = 0)) :=
  ⟨⟨by norm_num, rfl, by norm_num, by norm_num⟩,
    calc_spread_list_equal_prices [2] [2] 3 0 (by norm_num) (by norm_num) rfl
      (by norm_num) (by norm_num)⟩

theorem foldl_monitor_detStep (o c : ℚ) :
    ∀ (ticks : List (ℤ × ℚ)) (s : DetState) (ts : List ℤ),
      (ticks.foldl (monitorStep o c) (monState s, ts)).2.length =
        ((ticks.map Prod.snd).foldl (detStep o c) (s, ts.length)).2 := by
  intro ticks
  induction ticks with
  | nil => intro s ts; rfl
  | cons tick rest ih =>
      intro s ts
      obtain ⟨t, v⟩ := tick
      simp only [List.foldl_cons, List.map_cons]
      cases s with
      | waitingOpen =>
          by_cases h : o ≤ v
          · rw [show monitorStep o c (monState DetState.waitingOpen, ts) (t, v) =
                  (monState DetState.waitingClose, ts) from by
                simp +decide [monitorStep, monState, h],
                show detStep o c (DetState.waitingOpen, ts.length) v =
                  (DetState.waitingClose, ts.length) from by
                simp [detStep, h]]
            exact ih DetState.waitingClose ts
          · rw [show monitorStep o c (monState DetState.waitingOpen, ts) (t, v) =
                  (monState DetState.waitingOpen, ts) from by
                simp +decide [monitorStep, monState, h],
                show detStep o c (DetState.waitingOpen, ts.length) v =
                  (DetState.waitingOpen, ts.length) from by
                simp [detStep, h]]
            exact ih DetState.waitingOpen ts
      | waitingClose =>
          by_cases h : v ≤ c
          · rw [show monitorStep o c (monState DetState.waitingClose, ts) (t, v) =
                  (monState DetState.waitingOpen, ts ++ [t]) from by
                simp +decide [monitorStep, monState, h],
                show detStep o c (DetState.waitingClose, ts.length) v =
                  (DetState.waitingOpen, ts.length + 1) from by
                simp [detStep, h]]
            have := ih DetState.waitingOpen (ts ++ [t])
            simpa using this
          · rw [show monitorStep o c (monState DetState.waitingClose, ts) (t, v) =
                  (monState DetState.waitingClose, ts) from by
                simp +decide [monitorStep, monState, h],
                show detStep o c (DetState.waitingClose, ts.length) v =
                  (DetState.waitingClose, ts.length) from by
                simp [detStep, h]]
            exact ih DetState.waitingClose ts

/-- C8: folding the live monitor's per-step transition (bot.py) over any
finite tick sequence, starting inactive with no recorded cycles, records
exactly as many cycles as the batch detector `count_cycles_for_thresholds`
(analyzer.py) counts on the same spread values with the same thresholds. -/
theorem monitor_cycles_eq_batch (ticks : List (ℤ × ℚ)) (o c : ℚ) :
    (ticks.foldl (monitorStep o c) ("inactive", [])).2.length =
      count_cycles_for_thresholds (ticks.map Prod.snd) o c := by
  have h := foldl_monitor_detStep o c ticks DetState.waitingOpen []
  rw [count_cycles_eq_spec]
  simpa [monState, countCyclesSpec] using h

theorem dictLookup_filter_of_not_mem {l : List (ℤ × ℚ)} {ts : ℤ}
    (h : ts ∉ l.map Prod.fst) : l.filter (fun p => p.1 = ts) = [] := by
  rw [List.filter_eq_nil_iff]
  intro p hp hkey
  exact h (List.mem_map.2 ⟨p, hp, of_decide_eq_true hkey⟩)

theorem dictLookup_eq_none_iff {l : List (ℤ × ℚ)} {ts : ℤ} :
    dictLookup l ts = none ↔ ts ∉ l.map Prod.fst := by
  constructor
  · intro h hmem
    rcases List.mem_map.1 hmem with ⟨p, hp, hkey⟩
    have hf : p ∈ l.filter (fun q => q.1 = ts) :=
      List.mem_filter.2 ⟨hp, by simp [hkey]⟩
    have hne : l.filter (fun q => q.1 = ts) ≠ [] := by
      intro hnil
      rw [hnil] at hf
      exact absurd hf (List.not_mem_nil p)
    have hsome := List.getLast?_isSome.2 hne
    rw [dictLookup, Option.map_eq_none'] at h
    rw [h] at hsome
    simp at hsome
  · intro h
    rw [dictLookup, dictLookup_filter_of_not_mem h]
    rfl

theorem dictLookup_mem {l : List (ℤ × ℚ)} {ts : ℤ} {p : ℚ}
    (h : dictLookup l ts = some p) : (ts, p) ∈ l := by
  rw [dictLookup] at h
  rcases Option.map_eq_some'.1 h with ⟨q, hq, hqp⟩
  have hmem := List.mem_of_getLast?_eq_some hq
  rcases List.mem_filter.1 hmem with ⟨hql, hqk⟩
  have hk : q.1 = ts := of_decide_eq_true hqk
  have : q = (ts, p) := by
    obtain ⟨q1, q2⟩ := q
    simp only at hk hqp
    rw [hk, hqp]
  rwa [this] at hql

theorem dictLookup_eq_some_of_nodup :
    ∀ {l : List (ℤ × ℚ)}, (l.map Prod.fst).Nodup →
      ∀ {ts : ℤ} {p : ℚ}, (ts, p) ∈ l → dictLookup l ts = some p := by
  intro l
  induction l with
  | nil => intro _ ts p hm; exact absurd hm (List.not_mem_nil _)
  | cons q rest ih =>
      intro hnd ts p hm
      rw [List.map_cons, List.nodup_cons] at hnd
      rcases List.mem_cons.1 hm with hq | hrest
      · have hk : q.1 = ts := by rw [← hq]
        have hnrest : ts ∉ rest.map Prod.fst := hk ▸ hnd.1
        rw [dictLookup, List.filter_cons_of_pos (by simp [hk]),
          dictLookup_filter_of_not_mem hnrest]
        simp [← hq]
      · have hts : ts ∈ rest.map Prod.fst :=
          List.mem_map.2 ⟨(ts, p), hrest, rfl⟩
        have hk : ¬ q.1 = ts := by
          intro hq1
          exact hnd.1 (hq1 ▸ hts)
        rw [dictLookup, List.filter_cons_of_neg (by simp [hk])]
        exact ih hnd.2 hrest

theorem dictLookup_perm {l l' : List (ℤ × ℚ)}
    (hnd : (l.map Prod.fst).Nodup) (hp : l'.Perm l) (ts : ℤ) :
    dictLookup l' ts = dictLookup l ts := by
  have hnd' : (l'.map Prod.fst).Nodup := ((hp.map Prod.fst).nodup_iff).2 hnd
  cases hv : dictLookup l ts with
  | none =>
      rw [dictLookup_eq_none_iff] at hv ⊢
      intro hmem
      exact hv ((hp.map Prod.fst).mem_iff.1 hmem)
  | some p =>
      have hm := dictLookup_mem hv
      exact dictLookup_eq_some_of_nodup hnd' (hp.mem_iff.2 hm)

theorem mem_commonKeys {a b : List (ℤ × ℚ)} {ts : ℤ} :
    ts ∈ commonKeys a b ↔ ts ∈ a.map Prod.fst ∧ ts ∈ b.map Prod.fst := by
  simp [commonKeys, List.mem_filter, List.mem_dedup]

theorem commonKeys_nodup (a b : List (ℤ × ℚ)) : (commonKeys a b).Nodup :=
  ((List.mergeSort_perm _ _).nodup_iff).2
    (List.Nodup.filter _ (List.nodup_dedup _))

theorem commonKeys_sorted_le (a b : List (ℤ × ℚ)) :
    (commonKeys a b).Pairwise (· ≤ ·) := by
  have h := @List.sorted_mergeSort ℤ
    (fun x y : ℤ => decide (x ≤ y))
    (fun x y z hxy hyz =>
      decide_eq_true (le_trans (of_decide_eq_true hxy) (of_decide_eq_true hyz)))
    (fun x y => by simpa [Bool.or_eq_true, decide_eq_true_iff] using le_total x y)
    (((a.map Prod.fst).dedup).filter (fun ts => ts ∈ b.map Prod.fst))
  exact h.imp (fun hxy => of_decide_eq_true hxy)

theorem commonKeys_sorted_lt (a b : List (ℤ × ℚ)) :
    (commonKeys a b).Pairwise (· < ·) :=
  ((commonKeys_sorted_le a b).and (commonKeys_nodup a b)).imp
    (fun h => lt_of_le_of_ne h.1 h.2)

theorem commonKeys_perm_fixed {a a' b b' : List (ℤ × ℚ)}
    (hpa : a'.Perm a) (hpb : b'.Perm b) :
    commonKeys a' b' = commonKeys a b := by
  have hkb : ∀ ts : ℤ, ts ∈ b'.map Prod.fst ↔ ts ∈ b.map Prod.fst :=
    fun ts => (hpb.map Prod.fst).mem_iff
  have hstep : ((a'.map Prod.fst).dedup).filter (fun ts => ts ∈ b'.map Prod.fst) =
      ((a'.map Prod.fst).dedup).filter (fun ts => ts ∈ b.map Prod.fst) :=
    List.filter_congr (fun ts _ => by simp [hkb ts])
  have hperm : (((a'.map Prod.fst).dedup).filter (fun ts => ts ∈ b.map Prod.fst)).Perm
      (((a.map Prod.fst).dedup).filter (fun ts => ts ∈ b.map Prod.fst)) :=
    ((hpa.map Prod.fst).dedup).filter _
  haveI : IsAntisymm ℤ (· ≤ ·) := ⟨fun _ _ => le_antisymm⟩
  refine List.eq_of_perm_of_sorted (r := (· ≤ ·)) ?_ ?_ ?_
  · exact (List.mergeSort_perm _ _).trans
      ((hstep ▸ hperm).trans (List.mergeSort_perm _ _).symm)
  · exact commonKeys_sorted_le a' b'
  · exact commonKeys_sorted_le a b

theorem getD_map_price (f : ℤ → ℚ) (l : List ℤ) (i : ℕ) (hi : i < l.length) :
    (l.map f).getD i 0 = f (l.getD i 0) := by
  rw [List.getD_eq_getElem _ _ (by simpa using hi), List.getD_eq_getElem _ _ hi,
    List.getElem_map]

theorem getD_mem_of_lt (l : List ℤ) (i : ℕ) (hi : i < l.length) :
    l.getD i 0 ∈ l := by
  rw [List.getD_eq_getElem _ _ hi]
  exact List.getElem_mem hi

/-- C6: `align_series` returns the sorted intersection of the two timestamp
key sets (strictly increasing, hence duplicate-free), two price sequences of
that same length whose i-th entries are the prices stored in the respective
input series at the i-th common timestamp, an empty triple when the
intersection is empty, and — for series with unique timestamps, the data
model's invariant — a result independent of the ordering of the input
points. -/
theorem align_series_correct (a b : List (ℤ × ℚ))
    (ha : (a.map Prod.fst).Nodup) (hb : (b.map Prod.fst).Nodup) :
    (∀ ts : ℤ, ts ∈ (align_series a b).1 ↔
        ts ∈ a.map Prod.fst ∧ ts ∈ b.map Prod.fst)
    ∧ (align_series a b).1.Pairwise (· < ·)
    ∧ (align_series a b).2.1.length = (align_series a b).1.length
    ∧ (align_series a b).2.2.length = (align_series a b).1.length
    ∧ (∀ i, i < (align_series a b).1.length →
        ((align_series a b).1.getD i 0, (align_series a b).2.1.getD i 0) ∈ a
        ∧ ((align_series a b).1.getD i 0, (align_series a b).2.2.getD i 0) ∈ b)
    ∧ ((¬ ∃ ts : ℤ, ts ∈ a.map Prod.fst ∧ ts ∈ b.map Prod.fst) →
        align_series a b = ([], [], []))
    ∧ (∀ a' b' : List (ℤ × ℚ), a'.Perm a → b'.Perm b →
        align_series a' b' = align_series a b) := by
  refine ⟨fun ts => mem_commonKeys, commonKeys_sorted_lt a b,
    List.length_map _ _, List.length_map _ _, ?_, ?_, ?_⟩
  · intro i hi
    have hi' : i < (commonKeys a b).length := hi
    have hmem : (commonKeys a b).getD i 0 ∈ commonKeys a b :=
      getD_mem_of_lt _ i hi'
    have hkeys := mem_commonKeys.1 hmem
    constructor
    · rw [show (align_series a b).2.1 =
        (commonKeys a b).map (fun ts => (dictLookup a ts).getD 0) from rfl,
        getD_map_price _ _ i hi']
      cases hv : dictLookup a ((commonKeys a b).getD i 0) with
      | none => exact absurd hkeys.1 (dictLookup_eq_none_iff.1 hv)
      | some p => simpa [hv] using dictLookup_mem hv
    · rw [show (align_series a b).2.2 =
        (commonKeys a b).map (fun ts => (dictLookup b ts).getD 0) from rfl,
        getD_map_price _ _ i hi']
      cases hv : dictLookup b ((commonKeys a b).getD i 0) with
      | none => exact absurd hkeys.2 (dictLookup_eq_none_iff.1 hv)
      | some p => simpa [hv] using dictLookup_mem hv
  · intro hno
    have hempty : commonKeys a b = [] := by
      rw [List.eq_nil_iff_forall_not_mem]
      intro ts hts
      have := mem_commonKeys.1 hts
      exact hno ⟨ts, this⟩
    simp [align_series, hempty]
  · intro a' b' hpa hpb
    have hkeys := commonKeys_perm_fixed hpa hpb
    simp only [align_series, hkeys, Prod.mk.injEq, true_and]
    constructor
    · exact List.map_congr_left
        (fun ts _ => by rw [dictLookup_perm ha hpa ts])
    · exact List.map_congr_left
        (fun ts _ => by rw [dictLookup_perm hb hpb ts])

/-- C6 witness: the alignment theorem applied to the concrete series
[(1, 3)] and [(1, 4), (2, 5)], whose timestamp sets are duplicate-free and
intersect in exactly one timestamp. -/
theorem align_series_correct_witness :
    ((([(1, 3)] : List (ℤ × ℚ)).map Prod.fst).Nodup
      ∧ ((([(1, 4), (2, 5)] : List (ℤ × ℚ)).map Prod.fst).Nodup)
    ∧ ((∀ ts : ℤ, ts ∈ (align_series [(1, 3)] [(1, 4), (2, 5)]).1 ↔
          ts ∈ ([(1, 3)] : List (ℤ × ℚ)).map Prod.fst
            ∧ ts ∈ ([(1, 4), (2, 5)] : List (ℤ × ℚ)).map Prod.fst)
      ∧ (align_series [(1, 3)] [(1, 4), (2, 5)]).1.Pairwise (· < ·)
      ∧ (align_series [(1, 3)] [(1, 4), (2, 5)]).2.1.length =
          (align_series [(1, 3)] [(1, 4), (2, 5)]).1.length
      ∧ (align_series [(1, 3)] [(1, 4), (2, 5)]).2.2.length =
          (align_series [(1, 3)] [(1, 4), (2, 5)]).1.length
      ∧ (∀ i, i < (align_series [(1, 3)] [(1, 4), (2, 5)]).1.length →
          ((align_series [(1, 3)] [(1, 4), (2, 5)]).1.getD i 0,
            (align_series [(1, 3)] [(1, 4), (2, 5)]).2.1.getD i 0) ∈
              ([(1, 3)] : List (ℤ × ℚ))
          ∧ ((align_series [(1, 3)] [(1, 4), (2, 5)]).1.getD i 0,
              (align_series [(1, 3)] [(1, 4), (2, 5)]).2.2.getD i 0) ∈
              ([(1, 4), (2, 5)] : List (ℤ × ℚ)))
      ∧ ((¬ ∃ ts : ℤ, ts ∈ ([(1, 3)] : List (ℤ × ℚ)).map Prod.fst
            ∧ ts ∈ ([(1, 4), (2, 5)] : List (ℤ × ℚ)).map Prod.fst) →
          align_series [(1, 3)] [(1, 4), (2, 5)] = ([], [], []))
      ∧ (∀ a' b' : List (ℤ × ℚ),
          a'.Perm ([(1, 3)] : List (ℤ × ℚ)) →
          b'.Perm ([(1, 4), (2, 5)] : List (ℤ × ℚ)) →
          align_series a' b' = align_series [(1, 3)] [(1, 4), (2, 5)]))) :=
  ⟨by decide, by decide,
    align_series_correct [(1, 3)] [(1, 4), (2, 5)] (by decide) (by decide)⟩

theorem closeLoop_eq_filterMap (spreads : List ℚ) (open_val max_close : ℚ) :
    ∀ (fuel : ℕ) (close_val : ℚ),
      closeLoop spreads open_val max_close fuel close_val =
        (closeGrid open_val max_close fuel close_val).filterMap
          (keepPositive spreads) := by
  intro fuel
  induction fuel with
  | zero => intro close_val; rfl
  | succ n ih =>
      intro close_val
      rw [closeLoop, closeGrid]
      by_cases h : close_val ≤ max_close + eps
      · rw [if_pos h, if_pos h, List.filterMap_cons]
        simp only [keepPositive, ih]
        split <;> rfl
      · rw [if_neg h, if_neg h]
        rfl

theorem openLoop_eq_filterMap (spreads : List ℚ) (open_max : ℚ) :
    ∀ (fuel : ℕ) (open_val : ℚ),
      openLoop spreads open_max fuel open_val =
        (openGrid open_max fuel open_val).filterMap (keepPositive spreads) := by
  intro fuel
  induction fuel with
  | zero => intro open_val; rfl
  | succ n ih =>
      intro open_val
      rw [openLoop, openGrid]
      by_cases h : open_val ≤ open_max + eps
      · rw [if_pos h, if_pos h]
        by_cases h2 : round10 (open_val - 4 + eps) < 0
        · rw [if_pos h2, if_pos h2, ih]
        · rw [if_neg h2, if_neg h2, List.filterMap_append,
            closeLoop_eq_filterMap, ih]
      · rw [if_neg h, if_neg h]
        rfl

theorem sweepResults_eq_filterMap (spreads : List ℚ) (open_min open_max : ℚ) :
    sweepResults spreads open_min open_max =
      (sweepGrid open_min open_max).filterMap (keepPositive spreads) :=
  openLoop_eq_filterMap spreads open_max 1000 open_min

theorem round10_halfInt {x : ℚ} (h : HalfInt x) : round10 x = x := by
  rcases h with ⟨k, rfl⟩
  unfold round10
  have he : ((k : ℚ) / 2) * 10 ^ 10 = ((k * 5000000000 : ℤ) : ℚ) := by
    push_cast
    ring
  rw [he, round_intCast]
  push_cast
  ring

theorem round2_halfInt {x : ℚ} (h : HalfInt x) : round2 x = x := by
  rcases h with ⟨k, rfl⟩
  unfold round2
  have he : ((k : ℚ) / 2) * 10 ^ 2 = ((k * 50 : ℤ) : ℚ) := by
    push_cast
    ring
  rw [he, round_intCast]
  push_cast
  ring

theorem halfInt_add_half {x : ℚ} (h : HalfInt x) : HalfInt (x + 0.5) := by
  rcases h with ⟨k, rfl⟩
  refine ⟨k + 1, ?_⟩
  push_cast
  norm_num
  ring

theorem halfInt_zero : HalfInt 0 := ⟨0, by norm_num⟩

theorem closeGrid_mem {o mc : ℚ} :
    ∀ (fuel : ℕ) (cv : ℚ), HalfInt cv →
      ∀ p ∈ closeGrid o mc fuel cv, p.1 = o ∧ HalfInt p.2 ∧ cv ≤ p.2 := by
  intro fuel
  induction fuel with
  | zero => intro cv _ p hp; simp [closeGrid] at hp
  | succ n ih =>
      intro cv hcv p hp
      rw [closeGrid] at hp
      by_cases h : cv ≤ mc + eps
      · rw [if_pos h] at hp
        rcases List.mem_cons.1 hp with rfl | htail
        · exact ⟨rfl, hcv, le_refl _⟩
        · have hcv' : HalfInt (round10 (cv + CLOSE_STEP)) := by
            rw [show CLOSE_STEP = (0.5 : ℚ) from rfl,
              round10_halfInt (halfInt_add_half hcv)]
            exact halfInt_add_half hcv
          have := ih (round10 (cv + CLOSE_STEP)) hcv' p htail
          refine ⟨this.1, this.2.1, le_trans ?_ this.2.2⟩
          rw [show CLOSE_STEP = (0.5 : ℚ) from rfl,
            round10_halfInt (halfInt_add_half hcv)]
          linarith
      · rw [if_neg h] at hp
        simp at hp

theorem closeGrid_pairwise {o mc : ℚ} :
    ∀ (fuel : ℕ) (cv : ℚ), HalfInt cv →
      (closeGrid o mc fuel cv).Pairwise (fun p q => p.2 < q.2) := by
  intro fuel
  induction fuel with
  | zero => intro cv _; simp [closeGrid]
  | succ n ih =>
      intro cv hcv
      rw [closeGrid]
      by_cases h : cv ≤ mc + eps
      · rw [if_pos h]
        have hcv' : HalfInt (round10 (cv + CLOSE_STEP)) := by
          rw [show CLOSE_STEP = (0.5 : ℚ) from rfl,
            round10_halfInt (halfInt_add_half hcv)]
          exact halfInt_add_half hcv
        refine List.Pairwise.cons ?_ (ih _ hcv')
        intro q hq
        have hmem := closeGrid_mem n _ hcv' q hq
        have hstep : cv < round10 (cv + CLOSE_STEP) := by
          rw [show CLOSE_STEP = (0.5 : ℚ) from rfl,
            round10_halfInt (halfInt_add_half hcv)]
          linarith
        exact lt_of_lt_of_le hstep hmem.2.2
      · rw [if_neg h]
        exact List.Pairwise.nil

theorem openGrid_mem {mx : ℚ} :
    ∀ (fuel : ℕ) (ov : ℚ), HalfInt ov →
      ∀ p ∈ openGrid mx fuel ov, HalfInt p.1 ∧ HalfInt p.2 ∧ ov ≤ p.1 := by
  intro fuel
  induction fuel with
  | zero => intro ov _ p hp; simp [openGrid] at hp
  | succ n ih =>
      intro ov hov p hp
      rw [openGrid] at hp
      have hov' : HalfInt (round10 (ov + OPEN_STEP)) := by
        rw [show OPEN_STEP = (0.5 : ℚ) from rfl,
          round10_halfInt (halfInt_add_half hov)]
        exact halfInt_add_half hov
      have hstep : ov < round10 (ov + OPEN_STEP) := by
        rw [show OPEN_STEP = (0.5 : ℚ) from rfl,
          round10_halfInt (halfInt_add_half hov)]
        linarith
      by_cases h : ov ≤ mx + eps
      · rw [if_pos h] at hp
        by_cases h2 : round10 (ov - 4 + eps) < 0
        · rw [if_pos h2] at hp
          have := ih _ hov' p hp
          exact ⟨this.1, this.2.1, le_trans (le_of_lt hstep) this.2.2⟩
        · rw [if_neg h2] at hp
          rcases List.mem_append.1 hp with hclose | hrec
          · have := closeGrid_mem 1000 0 halfInt_zero p hclose
            exact ⟨this.1 ▸ hov, this.2.1, le_of_eq this.1.symm⟩
          · have := ih _ hov' p hrec
            exact ⟨this.1, this.2.1, le_trans (le_of_lt hstep) this.2.2⟩
      · rw [if_neg h] at hp
        simp at hp

theorem openGrid_pairwise {mx : ℚ} :
    ∀ (fuel : ℕ) (ov : ℚ), HalfInt ov →
      (openGrid mx fuel ov).Pairwise
        (fun p q => p.1 < q.1 ∨ (p.1 = q.1 ∧ p.2 < q.2)) := by
  intro fuel
  induction fuel with
  | zero => intro ov _; simp [openGrid]
  | succ n ih =>
      intro ov hov
      rw [openGrid]
      have hov' : HalfInt (round10 (ov + OPEN_STEP)) := by
        rw [show OPEN_STEP = (0.5 : ℚ) from rfl,
          round10_halfInt (halfInt_add_half hov)]
        exact halfInt_add_half hov
      have hstep : ov < round10 (ov + OPEN_STEP) := by
        rw [show OPEN_STEP = (0.5 : ℚ) from rfl,
          round10_halfInt (halfInt_add_half hov)]
        linarith
      by_cases h : ov ≤ mx + eps
      · rw [if_pos h]
        by_cases h2 : round10 (ov - 4 + eps) < 0
        · rw [if_pos h2]
          exact ih _ hov'
        · rw [if_neg h2]
          rw [List.pairwise_append]
          refine ⟨?_, ih _ hov', ?_⟩
          · have hcp := @closeGrid_pairwise ov
              (round10 (ov - 4 + eps)) 1000 0 halfInt_zero
            refine List.Pairwise.imp_of_mem ?_ hcp
            intro p q hp hq hlt
            have e1 := (closeGrid_mem 1000 0 halfInt_zero p hp).1
            have e2 := (closeGrid_mem 1000 0 halfInt_zero q hq).1
            exact Or.inr ⟨e1.trans e2.symm, hlt⟩
          · intro p hp q hq
            have h1 := (closeGrid_mem 1000 0 halfInt_zero p hp).1
            have h2 := openGrid_mem n _ hov' q hq
            exact Or.inl (h1 ▸ lt_of_lt_of_le hstep h2.2.2)
      · rw [if_neg h]
        exact List.Pairwise.nil

theorem report_sorted_aux (l : List (ℚ × ℚ × ℕ)) :
    (l.mergeSort (fun x y => y.2.2 ≤ x.2.2)).Pairwise
      (fun x y => y.2.2 ≤ x.2.2) := by
  have h := @List.sorted_mergeSort (ℚ × ℚ × ℕ)
    (fun x y : ℚ × ℚ × ℕ => decide (y.2.2 ≤ x.2.2))
    (fun a b c hab hbc =>
      decide_eq_true (le_trans (of_decide_eq_true hbc) (of_decide_eq_true hab)))
    (fun a b => by
      simpa [Bool.or_eq_true, decide_eq_true_iff] using le_total b.2.2 a.2.2)
    l
  exact h.imp (fun hxy => of_decide_eq_true hxy)

theorem halfInt_four : HalfInt 4 := ⟨8, by norm_num⟩

theorem mem_filterMap_keep {spreads : List ℚ} {e : ℚ × ℚ × ℕ}
    (he : e ∈ (sweepGrid OPEN_MIN OPEN_MAX).filterMap (keepPositive spreads)) :
    0 < e.2.2
    ∧ e.2.2 = count_cycles_for_thresholds spreads e.1 e.2.1
    ∧ (e.1, e.2.1) ∈ sweepGrid OPEN_MIN OPEN_MAX
    ∧ HalfInt e.1 ∧ HalfInt e.2.1 := by
  rcases List.mem_filterMap.1 he with ⟨p, hp, hkeep⟩
  simp only [keepPositive] at hkeep
  split at hkeep
  · rcases Option.some.inj hkeep with rfl
    have hg := openGrid_mem 1000 OPEN_MIN halfInt_four p hp
    exact ⟨by assumption, rfl, hp, hg.1, hg.2.1⟩
  · exact absurd hkeep (by simp)

theorem analyze_report_eq (spreads : List ℚ) :
    analyze_report spreads =
      (((sweepGrid OPEN_MIN OPEN_MAX).filterMap (keepPositive spreads)).mergeSort
        (fun x y => y.2.2 ≤ x.2.2)).take 5 := by
  by_cases hnil : sweepResults spreads OPEN_MIN OPEN_MAX = []
  · rw [analyze_report, if_pos hnil]
    rw [sweepResults_eq_filterMap] at hnil
    rw [hnil]
    simp
  · rw [analyze_report, if_neg hnil, sweepResults_eq_filterMap]
    have hmap : (((((sweepGrid OPEN_MIN OPEN_MAX).filterMap
          (keepPositive spreads)).mergeSort
        (fun x y => y.2.2 ≤ x.2.2)).take 5).map
          (fun r => (round2 r.1, round2 r.2.1, r.2.2))) =
        (((((sweepGrid OPEN_MIN OPEN_MAX).filterMap
          (keepPositive spreads)).mergeSort
        (fun x y => y.2.2 ≤ x.2.2)).take 5).map (fun r => r)) := by
      refine List.map_congr_left ?_
      intro r hr
      have hr2 : r ∈ (sweepGrid OPEN_MIN OPEN_MAX).filterMap
          (keepPositive spreads) :=
        List.mem_mergeSort.1 (List.mem_of_mem_take hr)
      have hh := mem_filterMap_keep hr2
      show (round2 r.1, round2 r.2.1, r.2.2) = r
      rw [round2_halfInt hh.2.2.2.1, round2_halfInt hh.2.2.2.2]
    rw [hmap, List.map_id']

/-- C2: for every spread series (with the configured grid 4.0 to 30.0 in
steps of 0.5), the report equals the top 5 of the stable descending sort, by
cycle count, of exactly those enumerated (open, close) pairs whose cycle
count is positive, taken in sweep encounter order; the report has at most 5
entries, is sorted by cycle count descending, every entry is an enumerated
pair carrying its positive cycle count, an all-zero sweep yields the empty
report rather than an error, and the sweep enumeration order is ascending
open then ascending close. -/
theorem analyze_report_correct (spreads : List ℚ) :
    analyze_report spreads =
      (((sweepGrid OPEN_MIN OPEN_MAX).filterMap (keepPositive spreads)).mergeSort
        (fun x y => y.2.2 ≤ x.2.2)).take 5
    ∧ (analyze_report spreads).length ≤ 5
    ∧ (analyze_report spreads).Pairwise (fun x y => y.2.2 ≤ x.2.2)
    ∧ (∀ e ∈ analyze_report spreads,
        0 < e.2.2
        ∧ e.2.2 = count_cycles_for_thresholds spreads e.1 e.2.1
        ∧ (e.1, e.2.1) ∈ sweepGrid OPEN_MIN OPEN_MAX)
    ∧ ((∀ p ∈ sweepGrid OPEN_MIN OPEN_MAX,
          count_cycles_for_thresholds spreads p.1 p.2 = 0) →
        analyze_report spreads = [])
    ∧ (sweepGrid OPEN_MIN OPEN_MAX).Pairwise
        (fun p q => p.1 < q.1 ∨ (p.1 = q.1 ∧ p.2 < q.2)) := by
  have heq := analyze_report_eq spreads
  refine ⟨heq, ?_, ?_, ?_, ?_, ?_⟩
  · rw [heq]
    exact List.length_take_le 5 _
  · rw [heq]
    exact List.Pairwise.sublist (List.take_sublist _ _) (report_sorted_aux _)
  · intro e he
    rw [heq] at he
    have hh := mem_filterMap_keep
      (List.mem_mergeSort.1 (List.mem_of_mem_take he))
    exact ⟨hh.1, hh.2.1, hh.2.2.1⟩
  · intro hall
    rw [heq]
    have hfm : (sweepGrid OPEN_MIN OPEN_MAX).filterMap (keepPositive spreads) =
        [] := by
      rw [List.filterMap_eq_nil_iff]
      intro p hp
      simp only [keepPositive, hall p hp]
      rfl
    rw [hfm]
    simp
  · exact openGrid_pairwise 1000 OPEN_MIN halfInt_four

/-- C7: with openMin=4, openMax=5, openStep=closeStep=0.5 and minimum gap 4
(the code's `open_val - 4.0`), the grid points at which the sweep invokes the
Cycle Detector are exactly (4.0, 0.0), (4.5, 0.0), (4.5, 0.5), (5.0, 0.0),
(5.0, 0.5), (5.0, 1.0), in this order, with no point skipped or duplicated
by the rounded floating-point stepping; and for every spread series the
sweep's retained results are the positive-count filtering of exactly these
invocations. -/
theorem sweep_grid_four_five :
    sweepGrid 4 5 = [(4, 0), (4.5, 0), (4.5, 0.5), (5, 0), (5, 0.5), (5, 1)]
    ∧ (sweepGrid 4 5).Nodup
    ∧ (∀ spreads : List ℚ, sweepResults spreads 4 5 =
        (sweepGrid 4 5).filterMap (keepPositive spreads)) :=
  ⟨by with_unfolding_all decide, by with_unfolding_all decide,
    fun spreads => sweepResults_eq_filterMap spreads 4 5⟩

theorem lookup_append_sym (l₁ l₂ : List (String × List (ℤ × ℚ))) (k : String) :
    (l₁ ++ l₂).lookup k =
      match l₁.lookup k with
      | some v => some v
      | none => l₂.lookup k := by
  induction l₁ with
  | nil => simp [List.lookup]
  | cons q rest ih =>
      obtain ⟨k', v'⟩ := q
      by_cases h : k = k'
      · simp [List.lookup, h]
      · have hbeq : (k == k') = false := by
          simp [h]
        simp only [List.cons_append, List.lookup, hbeq]
        exact ih

theorem ensureCached_none_iff {fetch : String → Option (List (ℤ × ℚ))}
    {cache : List (String × List (ℤ × ℚ))} {k : String}
    (hok : CacheOK fetch cache) :
    ensureCached fetch cache k = none ↔ fetch k = none := by
  unfold ensureCached
  cases hl : cache.lookup k with
  | some v => simp [hok k v hl]
  | none =>
      cases hf : fetch k with
      | none => simp
      | some kl => simp

theorem ensureCached_some_spec {fetch : String → Option (List (ℤ × ℚ))}
    {cache cache' : List (String × List (ℤ × ℚ))} {k : String}
    (hok : CacheOK fetch cache)
    (h : ensureCached fetch cache k = some cache') :
    CacheOK fetch cache' ∧ cache'.lookup k = fetch k
      ∧ ∀ k' v', cache.lookup k' = some v' → cache'.lookup k' = some v' := by
  unfold ensureCached at h
  cases hl : cache.lookup k with
  | some v =>
      rw [hl] at h
      rcases Option.some.inj h with rfl
      exact ⟨hok, by rw [hl, hok k v hl], fun _ _ hv => hv⟩
  | none =>
      rw [hl] at h
      cases hf : fetch k with
      | none => rw [hf] at h; exact absurd h (by simp)
      | some kl =>
          rw [hf] at h
          rcases Option.some.inj h with rfl
          refine ⟨?_, ?_, ?_⟩
          · intro k' v' hv'
            rw [lookup_append_sym] at hv'
            cases hl' : cache.lookup k' with
            | some w => rw [hl'] at hv'; exact hok k' v' (hl' ▸ hv')
            | none =>
                rw [hl'] at hv'
                simp only [List.lookup] at hv'
                by_cases hk : k' = k
                · subst hk
                  simp at hv'
                  rw [hf, hv']
                · have hbeq : (k' == k) = false := by simp [hk]
                  rw [hbeq] at hv'
                  simp at hv'
          · rw [lookup_append_sym, hl]
            simp [List.lookup, hf]
          · intro k' v' hv'
            rw [lookup_append_sym, hv']

theorem analyze_pair_spec (p1 p2 : String) (coef : ℚ)
    (fetch : String → Option (List (ℤ × ℚ)))
    (cache : List (String × List (ℤ × ℚ))) (hok : CacheOK fetch cache) :
    (analyze_pair p1 p2 coef fetch cache).1 = analyzePure p1 p2 coef fetch
    ∧ CacheOK fetch (analyze_pair p1 p2 coef fetch cache).2 := by
  unfold analyze_pair
  cases h1 : ensureCached fetch cache p1 with
  | none =>
      have hf1 : fetch p1 = none := (ensureCached_none_iff hok).1 h1
      dsimp only
      refine ⟨?_, hok⟩
      simp only [analyzePure, hf1]
  | some cache1 =>
      have hs1 := ensureCached_some_spec hok h1
      dsimp only
      cases h2 : ensureCached fetch cache1 p2 with
      | none =>
          have hf2 : fetch p2 = none := (ensureCached_none_iff hs1.1).1 h2
          dsimp only
          refine ⟨?_, hs1.1⟩
          simp only [analyzePure, hf2]
          cases fetch p1 <;> rfl
      | some cache2 =>
          have hs2 := ensureCached_some_spec hs1.1 h2
          have hne1 : ensureCached fetch cache p1 ≠ none := by simp [h1]
          have hf1 : fetch p1 ≠ none :=
            fun hf => hne1 ((ensureCached_none_iff hok).2 hf)
          rcases Option.ne_none_iff_exists'.1 hf1 with ⟨kl1, hkl1⟩
          have hne2 : ensureCached fetch cache1 p2 ≠ none := by simp [h2]
          have hf2 : fetch p2 ≠ none :=
            fun hf => hne2 ((ensureCached_none_iff hs1.1).2 hf)
          rcases Option.ne_none_iff_exists'.1 hf2 with ⟨kl2, hkl2⟩
          have hc1 : cache1.lookup p1 = some kl1 := by rw [hs1.2.1, hkl1]
          have hc2p1 : cache2.lookup p1 = some kl1 := hs2.2.2 p1 kl1 hc1
          have hc2p2 : cache2.lookup p2 = some kl2 := by rw [hs2.2.1, hkl2]
          dsimp only
          refine ⟨?_, hs2.1⟩
          simp only [analyzePure, hkl1, hkl2, hc2p1, hc2p2, Option.getD_some]

theorem runAnalysisAux_eq_filterMap
    (fetch : String → Option (List (ℤ × ℚ))) :
    ∀ (l : List (String × String × ℚ))
      (cache : List (String × List (ℤ × ℚ))), CacheOK fetch cache →
      runAnalysisAux fetch l cache =
        l.filterMap (fun t =>
          (analyzePure t.1 t.2.1 t.2.2 fetch).map (fun r => ((t.1, t.2.1), r))) := by
  intro l
  induction l with
  | nil => intro cache _; rfl
  | cons t rest ih =>
      intro cache hok
      obtain ⟨p1, p2, coef⟩ := t
      have hs := analyze_pair_spec p1 p2 coef fetch cache hok
      rw [runAnalysisAux]
      rw [List.filterMap_cons]
      cases hp : analyze_pair p1 p2 coef fetch cache with
      | mk res cache' =>
          rw [hp] at hs
          simp only at hs
          cases res with
          | none =>
              simp only [← hs.1, Option.map_none']
              exact ih cache' hs.2
          | some r =>
              simp only [← hs.1, Option.map_some']
              rw [ih cache' hs.2]

/-- C9: a fetch failure for either asset of a combination leaves that
combination's key absent from the produced report (no error entry is
stored), every other combination is still processed — the run is exactly the
per-combination pure analysis of each configured combination, independent of
the shared cache — and a single failure never aborts the run. -/
theorem runAnalysis_skips_failures (pairsList : List (String × String × ℚ))
    (fetch : String → Option (List (ℤ × ℚ))) :
    runAnalysis pairsList fetch =
      pairsList.filterMap (fun t =>
        (analyzePure t.1 t.2.1 t.2.2 fetch).map (fun r => ((t.1, t.2.1), r)))
    ∧ (∀ p1 p2 : String, ∀ coef : ℚ, (p1, p2, coef) ∈ pairsList →
        fetch p1 = none ∨ fetch p2 = none →
        ∀ r, ((p1, p2), r) ∉ runAnalysis pairsList fetch)
    ∧ (∀ p1 p2 : String, ∀ coef : ℚ, ∀ res, (p1, p2, coef) ∈ pairsList →
        analyzePure p1 p2 coef fetch = some res →
        ((p1, p2), res) ∈ runAnalysis pairsList fetch) := by
  have hmain := runAnalysisAux_eq_filterMap fetch pairsList []
    (fun k v hv => by simp [List.lookup] at hv)
  refine ⟨hmain, ?_, ?_⟩
  · intro p1 p2 coef hmem hfail r hr
    rw [show runAnalysis pairsList fetch = runAnalysisAux fetch pairsList []
        from rfl, hmain] at hr
    rcases List.mem_filterMap.1 hr with ⟨t, ht, hmap⟩
    rcases Option.map_eq_some'.1 hmap with ⟨r', hr', hkey⟩
    simp only [Prod.mk.injEq] at hkey
    obtain ⟨⟨hk1, hk2⟩, hk3⟩ := hkey
    have hnone : analyzePure t.1 t.2.1 t.2.2 fetch = none := by
      rw [hk1, hk2]
      rcases hfail with hf | hf
      · simp only [analyzePure, hf]
      · simp only [analyzePure, hf]
        cases fetch p1 <;> rfl
    rw [hnone] at hr'
    exact absurd hr' (by simp)
  · intro p1 p2 coef res hmem hres
    rw [show runAnalysis pairsList fetch = runAnalysisAux fetch pairsList []
        from rfl, hmain]
    exact List.mem_filterMap.2 ⟨(p1, p2, coef), hmem, by simp [hres]⟩

end PairsSpreads
